import Mathlib

/-!
Shallow embedding of `main.py` ("Garagem Autônoma" 0/1 knapsack):
four solvers over a shared item model.

Python `int` is modelled by `Int`.  The greedy solver's sort key
`p.valor / p.custo` is modelled by exact rational division; a zero cost
raises `ZeroDivisionError` in Python while the sort key is being
computed, so the greedy solver is embedded as an `Option`-returning
function that is `none` exactly when some item has cost `0`.
Python's `sorted(..., reverse=True)` is a stable descending sort,
modelled by `List.mergeSort` with the comparator "ratio of the left
argument is at least the ratio of the right argument".

The recursive solvers index items by a Python index `i` running from
`n - 1` down to `-1`; we shift it to a natural number `k = i + 1`
(the length of the prefix of items still under consideration), so the
Python base case `i < 0` becomes `k = 0`.  Within range, list indexing
`projetos[i]` is embedded as `getD` with a dummy default item.
-/

structure Projeto where
  nome : String
  valor : Int
  custo : Int
deriving DecidableEq, Repr

def projDefault : Projeto := ⟨"", 0, 0⟩

/-- The greedy sort key `p.valor / p.custo`, as an exact rational. -/
def razao (p : Projeto) : Rat := (p.valor : Rat) / (p.custo : Rat)

/-- The selection loop of `mochila_gulosa`: scan the sorted list, take an
item whenever its cost fits in the remaining capacity, accumulating total
value and chosen names in acceptance order. -/
def gulosaLoop : List Projeto → Int → Int × List String
  | [], _ => (0, [])
  | p :: rest, restante =>
    if p.custo ≤ restante then
      let r := gulosaLoop rest (restante - p.custo)
      (p.valor + r.1, p.nome :: r.2)
    else
      gulosaLoop rest restante

/-- Fase 1 – `mochila_gulosa`.  `none` models the `ZeroDivisionError`
raised while computing the sort key when some item has cost `0`. -/
def mochila_gulosa (projetos : List Projeto) (capacidade : Int) :
    Option (Int × List String) :=
  if projetos.any (fun p => p.custo = 0) then none
  else
    let projetos_ordenados :=
      projetos.mergeSort (fun a b => decide (razao b ≤ razao a))
    some (gulosaLoop projetos_ordenados capacidade)

/-- The inner `resolver` of `mochila_recursiva`, with the Python index
shifted by one: `resolverRec projetos (i + 1) c` is Python
`resolver(i, c)`, and `resolverRec projetos 0 c` is the `i < 0` base. -/
def resolverRec (projetos : List Projeto) : Nat → Int → Int × List String
  | 0, _ => (0, [])
  | k + 1, c =>
    if c ≤ 0 then (0, [])
    else
      let projeto := projetos.getD k projDefault
      let sem := resolverRec projetos k c
      if projeto.custo > c then sem
      else
        let com := resolverRec projetos k (c - projeto.custo)
        let valor_com := com.1 + projeto.valor
        let itens_com := com.2 ++ [projeto.nome]
        if valor_com > sem.1 then (valor_com, itens_com) else sem

/-- Fase 2 – `mochila_recursiva`: `resolver(n - 1, capacidade)`. -/
def mochila_recursiva (projetos : List Projeto) (capacidade : Int) :
    Int × List String :=
  resolverRec projetos projetos.length capacidade

/-- The memo cache of `mochila_memo`: an association list keyed by the
(un-shifted) Python pair `(i, c)`; a fresh entry is prepended, and lookup
returns the most recent binding, matching dict overwrite semantics. -/
def Memo : Type := List ((Nat × Int) × (Int × List String))

def memoFind : Memo → Nat × Int → Option (Int × List String)
  | [], _ => none
  | (k, v) :: rest, key => if k = key then some v else memoFind rest key

/-- The inner `resolver` of `mochila_memo`, with the memo dict passed as
explicit state.  Base cases return before the cache is consulted, exactly
as in the Python code. -/
def resolverMemo (projetos : List Projeto) :
    Nat → Int → Memo → (Int × List String) × Memo
  | 0, _, memo => ((0, []), memo)
  | k + 1, c, memo =>
    if c ≤ 0 then ((0, []), memo)
    else
      match memoFind memo (k, c) with
      | some r => (r, memo)
      | none =>
        let projeto := projetos.getD k projDefault
        let semS := resolverMemo projetos k c memo
        let sem := semS.1
        if projeto.custo > c then
          (sem, ((k, c), sem) :: semS.2)
        else
          let comS := resolverMemo projetos k (c - projeto.custo) semS.2
          let com := comS.1
          let valor_com := com.1 + projeto.valor
          let itens_com := com.2 ++ [projeto.nome]
          let entry := if valor_com > sem.1 then (valor_com, itens_com) else sem
          (entry, ((k, c), entry) :: comS.2)

/-- Fase 3 – `mochila_memo`: `resolver(n - 1, capacidade)` with an
initially empty cache; the returned cache is discarded. -/
def mochila_memo (projetos : List Projeto) (capacidade : Int) :
    Int × List String :=
  (resolverMemo projetos projetos.length capacidade []).1

/-- The DP table of `mochila_pd` as a function: `tabela projetos i c` is
the Python `tabela[i][c]`.  Row 0 is the all-zero initialisation; rows
`1..n` follow the forward fill.  The function is total in `c`, agreeing
with the Python table on every index the program reads. -/
def tabela (projetos : List Projeto) : Nat → Int → Int
  | 0, _ => 0
  | i + 1, c =>
    let projeto := projetos.getD i projDefault
    if projeto.custo > c then tabela projetos i c
    else
      max (tabela projetos i c)
        (projeto.valor + tabela projetos i (c - projeto.custo))

/-- The backward reconstruction loop of `mochila_pd`: walking `i` from
`n` down to `1`, an item is recorded (in descending index order, before
the final `reverse`) whenever `tabela[i][c] != tabela[i-1][c]`, and `c`
drops by its cost. -/
def reconstruir (projetos : List Projeto) : Nat → Int → List String
  | 0, _ => []
  | i + 1, c =>
    if tabela projetos (i + 1) c ≠ tabela projetos i c then
      let projeto := projetos.getD i projDefault
      projeto.nome :: reconstruir projetos i (c - projeto.custo)
    else
      reconstruir projetos i c

/-- Fase 4 – `mochila_pd`: forward fill then backward reconstruction,
returning `tabela[n][capacidade]` and the reversed recorded names. -/
def mochila_pd (projetos : List Projeto) (capacidade : Int) :
    Int × List String :=
  (tabela projetos projetos.length capacidade,
    (reconstruir projetos projetos.length capacidade).reverse)

/-- The `exemplo_enunciado` test data: four projects and capacity 10. -/
def exemplo_enunciado : List Projeto × Int :=
  ([⟨"A", 12, 4⟩, ⟨"B", 10, 3⟩, ⟨"C", 7, 2⟩, ⟨"D", 4, 3⟩], 10)

/-- Total cost of a list of items. -/
def sumCusto (s : List Projeto) : Int := (s.map Projeto.custo).sum

/-- Total value of a list of items. -/
def sumValor (s : List Projeto) : Int := (s.map Projeto.valor).sum

/-- Validity of an input per the spec's harness contract: positive
integer costs, non-negative integer values, non-negative capacity. -/
def ValidInput (projetos : List Projeto) (capacidade : Int) : Prop :=
  (∀ p ∈ projetos, 0 < p.custo ∧ 0 ≤ p.valor) ∧ 0 ≤ capacidade

/-! ### Basic facts about the embedded helpers -/

theorem resolverRec_nonpos (projetos : List Projeto) (k : Nat) (c : Int)
    (hc : c ≤ 0) : resolverRec projetos k c = (0, []) := by
  cases k with
  | zero => rfl
  | succ k => simp [resolverRec, hc]

theorem getD_mem (projetos : List Projeto) (i : Nat) (h : i < projetos.length) :
    projetos.getD i projDefault ∈ projetos := by
  rw [List.getD_eq_getElem?_getD, List.getElem?_eq_getElem h]
  exact List.getElem_mem h

theorem take_succ_concat (projetos : List Projeto) (i : Nat)
    (h : i < projetos.length) :
    projetos.take (i + 1) = projetos.take i ++ [projetos.getD i projDefault] := by
  rw [List.take_succ, List.getElem?_eq_getElem h,
    List.getD_eq_getElem?_getD, List.getElem?_eq_getElem h]
  rfl

theorem take_sublist_take_succ (projetos : List Projeto) (i : Nat) :
    (projetos.take i).Sublist (projetos.take (i + 1)) := by
  have h : projetos.take i = (projetos.take (i + 1)).take i := by
    rw [List.take_take]; congr 1; omega
  rw [h]; exact List.take_sublist _ _

theorem sumCusto_nonneg (s : List Projeto) (h : ∀ p ∈ s, 0 ≤ p.custo) :
    0 ≤ sumCusto s := by
  induction s with
  | nil => simp [sumCusto]
  | cons p rest ih =>
    have h1 := h p (by simp)
    have h2 := ih (fun q hq => h q (by simp [hq]))
    simp only [sumCusto, List.map_cons, List.sum_cons] at *
    omega

theorem sumCusto_append (s t : List Projeto) :
    sumCusto (s ++ t) = sumCusto s + sumCusto t := by
  simp [sumCusto, List.sum_append]

theorem sumValor_append (s t : List Projeto) :
    sumValor (s ++ t) = sumValor s + sumValor t := by
  simp [sumValor, List.sum_append]

theorem nil_of_sumCusto_nonpos (s : List Projeto)
    (h : ∀ p ∈ s, 0 < p.custo) (hle : sumCusto s ≤ 0) : s = [] := by
  cases s with
  | nil => rfl
  | cons p rest =>
    exfalso
    have h1 := h p (by simp)
    have h2 : 0 ≤ sumCusto rest :=
      sumCusto_nonneg rest (fun q hq => le_of_lt (h q (by simp [hq])))
    simp only [sumCusto, List.map_cons, List.sum_cons] at hle
    have h3 : sumCusto rest = (rest.map Projeto.custo).sum := rfl
    omega

/-! ### The DP table agrees with the recursive solver -/

theorem tabela_eq_fst (projetos : List Projeto)
    (hpos : ∀ p ∈ projetos, 0 < p.custo) :
    ∀ i, i ≤ projetos.length → ∀ c : Int,
      tabela projetos i c = (resolverRec projetos i c).1 := by
  intro i
  induction i with
  | zero => intro _ c; rfl
  | succ i ih =>
    intro hlen c
    have hi : i < projetos.length := by omega
    have hcu : 0 < (projetos.getD i projDefault).custo :=
      (hpos _ (getD_mem projetos i hi))
    by_cases hc : c ≤ 0
    · rw [resolverRec_nonpos projetos (i + 1) c hc]
      have : (projetos.getD i projDefault).custo > c := by omega
      simp only [tabela, this, if_pos]
      rw [ih (by omega) c, resolverRec_nonpos projetos i c hc]
    · push_neg at hc
      simp only [tabela, resolverRec, if_neg (by omega : ¬ c ≤ 0)]
      by_cases hfit : (projetos.getD i projDefault).custo > c
      · simp only [if_pos hfit]
        exact ih (by omega) c
      · simp only [if_neg hfit]
        rw [ih (by omega) c, ih (by omega) (c - (projetos.getD i projDefault).custo)]
        split <;> omega

theorem tabela_nonpos (projetos : List Projeto)
    (hpos : ∀ p ∈ projetos, 0 < p.custo) :
    ∀ i, i ≤ projetos.length → ∀ c : Int, c ≤ 0 → tabela projetos i c = 0 := by
  intro i hlen c hc
  rw [tabela_eq_fst projetos hpos i hlen c, resolverRec_nonpos projetos i c hc]

theorem reconstruir_eq_snd (projetos : List Projeto)
    (hpos : ∀ p ∈ projetos, 0 < p.custo) :
    ∀ i, i ≤ projetos.length → ∀ c : Int, 0 ≤ c →
      (reconstruir projetos i c).reverse = (resolverRec projetos i c).2 := by
  intro i
  induction i with
  | zero => intro _ c _; rfl
  | succ i ih =>
    intro hlen c hc
    have hi : i < projetos.length := by omega
    have hcu : 0 < (projetos.getD i projDefault).custo :=
      (hpos _ (getD_mem projetos i hi))
    by_cases hc0 : c ≤ 0
    · have hceq : c = 0 := by omega
      subst hceq
      rw [resolverRec_nonpos projetos (i + 1) 0 (by omega)]
      have hne : ¬ tabela projetos (i + 1) 0 ≠ tabela projetos i 0 := by
        rw [tabela_nonpos projetos hpos (i + 1) hlen 0 (by omega),
          tabela_nonpos projetos hpos i (by omega) 0 (by omega)]
        simp
      simp only [reconstruir, if_neg hne]
      rw [ih (by omega) 0 (by omega), resolverRec_nonpos projetos i 0 (by omega)]
    · push_neg at hc0
      simp only [resolverRec, if_neg (by omega : ¬ c ≤ 0)]
      by_cases hfit : (projetos.getD i projDefault).custo > c
      · have heq : tabela projetos (i + 1) c = tabela projetos i c := by
          simp only [tabela, if_pos hfit]
        have hcond : ¬ tabela projetos (i + 1) c ≠ tabela projetos i c := by
          simp [heq]
        rw [show reconstruir projetos (i + 1) c = reconstruir projetos i c by
          simp only [reconstruir, if_neg hcond]]
        rw [if_pos hfit]
        exact ih (by omega) c hc
      · have hA := tabela_eq_fst projetos hpos i (by omega) c
        have hB := tabela_eq_fst projetos hpos i (by omega)
          (c - (projetos.getD i projDefault).custo)
        have htab : tabela projetos (i + 1) c =
            max (tabela projetos i c)
              ((projetos.getD i projDefault).valor +
                tabela projetos i (c - (projetos.getD i projDefault).custo)) := by
          simp only [tabela, if_neg hfit]
        rw [if_neg hfit]
        by_cases hwin :
            (resolverRec projetos i (c - (projetos.getD i projDefault).custo)).1 +
              (projetos.getD i projDefault).valor > (resolverRec projetos i c).1
        · have hcond : tabela projetos (i + 1) c ≠ tabela projetos i c := by
            rw [htab, hA, hB]
            rcases max_cases ((resolverRec projetos i c).1)
              ((projetos.getD i projDefault).valor +
                (resolverRec projetos i (c - (projetos.getD i projDefault).custo)).1) with
              ⟨h1, h2⟩ | ⟨h1, h2⟩ <;> rw [h1] <;> omega
          rw [show reconstruir projetos (i + 1) c =
              (projetos.getD i projDefault).nome ::
                reconstruir projetos i (c - (projetos.getD i projDefault).custo) by
            simp only [reconstruir, if_pos hcond]]
          rw [if_pos hwin, List.reverse_cons,
            ih (by omega) (c - (projetos.getD i projDefault).custo) (by omega)]
        · have hcond : ¬ tabela projetos (i + 1) c ≠ tabela projetos i c := by
            rw [htab, hA, hB]
            rcases max_cases ((resolverRec projetos i c).1)
              ((projetos.getD i projDefault).valor +
                (resolverRec projetos i (c - (projetos.getD i projDefault).custo)).1) with
              ⟨h1, h2⟩ | ⟨h1, h2⟩ <;> rw [h1] <;> omega
          rw [show reconstruir projetos (i + 1) c = reconstruir projetos i c by
            simp only [reconstruir, if_neg hcond]]
          rw [if_neg hwin]
          exact ih (by omega) c hc

theorem mochila_pd_eq_recursiva (projetos : List Projeto) (capacidade : Int)
    (hpos : ∀ p ∈ projetos, 0 < p.custo) (hcap : 0 ≤ capacidade) :
    mochila_pd projetos capacidade = mochila_recursiva projetos capacidade := by
  unfold mochila_pd mochila_recursiva
  rw [tabela_eq_fst projetos hpos projetos.length (le_refl _) capacidade,
    reconstruir_eq_snd projetos hpos projetos.length (le_refl _) capacidade hcap]

/-! ### The memoized solver agrees with the pure recursive solver -/

/-- Every entry in the cache is the pure recursive result for its key
(key `(k, c)` stores Python `resolver(k, c)`, i.e. `resolverRec (k+1) c`). -/
def MemoOK (projetos : List Projeto) (memo : Memo) : Prop :=
  ∀ k c v, memoFind memo (k, c) = some v → v = resolverRec projetos (k + 1) c

theorem memoOK_nil (projetos : List Projeto) : MemoOK projetos [] := by
  intro k c v h
  simp [memoFind] at h

theorem memoOK_cons (projetos : List Projeto) (memo : Memo) (k : Nat) (c : Int)
    (v : Int × List String) (hm : MemoOK projetos memo)
    (hv : v = resolverRec projetos (k + 1) c) :
    MemoOK projetos (((k, c), v) :: memo) := by
  intro k' c' w hw
  simp only [memoFind] at hw
  by_cases hkey : (k, c) = (k', c')
  · obtain ⟨hk, hc⟩ := Prod.mk.injEq k c k' c' ▸ hkey
    subst hk; subst hc
    rw [if_pos rfl] at hw
    cases hw
    exact hv
  · rw [if_neg hkey] at hw
    exact hm k' c' w hw

theorem resolverMemo_ok (projetos : List Projeto) :
    ∀ k c (memo : Memo), MemoOK projetos memo →
      (resolverMemo projetos k c memo).1 = resolverRec projetos k c ∧
        MemoOK projetos (resolverMemo projetos k c memo).2 := by
  intro k
  induction k with
  | zero => intro c memo hm; exact ⟨rfl, hm⟩
  | succ k ih =>
    intro c memo hm
    by_cases hc : c ≤ 0
    · constructor
      · rw [resolverRec_nonpos projetos (k + 1) c hc]
        simp [resolverMemo, hc]
      · simp only [resolverMemo, if_pos hc]
        exact hm
    · rw [show resolverMemo projetos (k + 1) c memo =
          (match memoFind memo (k, c) with
          | some r => (r, memo)
          | none =>
            let projeto := projetos.getD k projDefault
            let semS := resolverMemo projetos k c memo
            let sem := semS.1
            if projeto.custo > c then
              (sem, ((k, c), sem) :: semS.2)
            else
              let comS := resolverMemo projetos k (c - projeto.custo) semS.2
              let com := comS.1
              let valor_com := com.1 + projeto.valor
              let itens_com := com.2 ++ [projeto.nome]
              let entry :=
                if valor_com > sem.1 then (valor_com, itens_com) else sem
              (entry, ((k, c), entry) :: comS.2)) by
        simp only [resolverMemo, if_neg hc]]
      cases hfind : memoFind memo (k, c) with
      | some r =>
        refine ⟨?_, hm⟩
        have := hm k c r hfind
        simp [this]
      | none =>
        simp only []
        obtain ⟨ih1, ih2⟩ := ih c memo hm
        have hrec : resolverRec projetos (k + 1) c =
            (if (projetos.getD k projDefault).custo > c then
              resolverRec projetos k c
            else
              if (resolverRec projetos k
                    (c - (projetos.getD k projDefault).custo)).1 +
                  (projetos.getD k projDefault).valor >
                  (resolverRec projetos k c).1 then
                ((resolverRec projetos k
                    (c - (projetos.getD k projDefault).custo)).1 +
                  (projetos.getD k projDefault).valor,
                 (resolverRec projetos k
                    (c - (projetos.getD k projDefault).custo)).2 ++
                  [(projetos.getD k projDefault).nome])
              else resolverRec projetos k c) := by
          simp only [resolverRec, if_neg hc]
        by_cases hfit : (projetos.getD k projDefault).custo > c
        · rw [if_pos hfit]
          constructor
          · rw [hrec, if_pos hfit, ih1]
          · exact memoOK_cons projetos _ k c _ ih2
              (by rw [hrec, if_pos hfit, ih1])
        · rw [if_neg hfit]
          obtain ⟨ihc1, ihc2⟩ :=
            ih (c - (projetos.getD k projDefault).custo)
              (resolverMemo projetos k c memo).2 ih2
          have hentry :
              (if (resolverMemo projetos k
                    (c - (projetos.getD k projDefault).custo)
                    (resolverMemo projetos k c memo).2).1.1 +
                  (projetos.getD k projDefault).valor >
                  (resolverMemo projetos k c memo).1.1 then
                ((resolverMemo projetos k
                    (c - (projetos.getD k projDefault).custo)
                    (resolverMemo projetos k c memo).2).1.1 +
                  (projetos.getD k projDefault).valor,
                 (resolverMemo projetos k
                    (c - (projetos.getD k projDefault).custo)
                    (resolverMemo projetos k c memo).2).1.2 ++
                  [(projetos.getD k projDefault).nome])
              else (resolverMemo projetos k c memo).1) =
              resolverRec projetos (k + 1) c := by
            rw [hrec, if_neg hfit, ih1, ihc1]
          refine ⟨hentry, memoOK_cons projetos _ k c _ ihc2 hentry⟩

theorem mochila_memo_eq_recursiva (projetos : List Projeto) (capacidade : Int) :
    mochila_memo projetos capacidade = mochila_recursiva projetos capacidade :=
  (resolverMemo_ok projetos projetos.length capacidade [] (memoOK_nil projetos)).1

/-! ### Feasibility, consistency and optimality of the recursive solver -/

theorem resolverRec_fst_le_succ (projetos : List Projeto) (i : Nat) (c : Int) :
    (resolverRec projetos i c).1 ≤ (resolverRec projetos (i + 1) c).1 := by
  by_cases hc : c ≤ 0
  · rw [resolverRec_nonpos projetos i c hc, resolverRec_nonpos projetos (i + 1) c hc]
  · simp only [resolverRec, if_neg hc]
    split
    · exact le_refl _
    · split
      · rename_i hwin
        simp only []
        omega
      · exact le_refl _

/-- The pure recursive solver's output is witnessed by a sublist of the
considered prefix: the chosen names are its names, the reported value is
its total value, and its total cost fits the (truncated) capacity. -/
theorem resolverRec_achieves (projetos : List Projeto) :
    ∀ i, i ≤ projetos.length → ∀ c : Int, ∃ s : List Projeto,
      s.Sublist (projetos.take i) ∧
      (resolverRec projetos i c).2 = s.map Projeto.nome ∧
      (resolverRec projetos i c).1 = sumValor s ∧
      sumCusto s ≤ max c 0 := by
  intro i
  induction i with
  | zero =>
    intro _ c
    exact ⟨[], List.nil_sublist _, rfl, rfl, by
      simp [sumCusto]⟩
  | succ i ih =>
    intro hlen c
    have hi : i < projetos.length := by omega
    by_cases hc : c ≤ 0
    · rw [resolverRec_nonpos projetos (i + 1) c hc]
      exact ⟨[], List.nil_sublist _, rfl, rfl, by simp [sumCusto]⟩
    · push_neg at hc
      have hmaxc : max c 0 = c := max_eq_left (by omega)
      obtain ⟨s₁, h1sub, h1names, h1val, h1cost⟩ := ih (by omega) c
      simp only [resolverRec, if_neg (by omega : ¬ c ≤ 0)]
      by_cases hfit : (projetos.getD i projDefault).custo > c
      · rw [if_pos hfit]
        exact ⟨s₁, h1sub.trans (take_sublist_take_succ projetos i),
          h1names, h1val, h1cost⟩
      · rw [if_neg hfit]
        obtain ⟨s₂, h2sub, h2names, h2val, h2cost⟩ :=
          ih (by omega) (c - (projetos.getD i projDefault).custo)
        by_cases hwin :
            (resolverRec projetos i (c - (projetos.getD i projDefault).custo)).1 +
              (projetos.getD i projDefault).valor > (resolverRec projetos i c).1
        · rw [if_pos hwin]
          refine ⟨s₂ ++ [projetos.getD i projDefault], ?_, ?_, ?_, ?_⟩
          · rw [take_succ_concat projetos i hi]
            exact h2sub.append (List.Sublist.refl _)
          · simp only [List.map_append, List.map_cons, List.map_nil]
            rw [h2names]
          · rw [sumValor_append, h2val]
            simp [sumValor]
          · rw [sumCusto_append, hmaxc]
            have hone : sumCusto [projetos.getD i projDefault] =
                (projetos.getD i projDefault).custo := by simp [sumCusto]
            rw [hone]
            rcases le_total 0 (c - (projetos.getD i projDefault).custo) with h | h
            · rw [max_eq_left h] at h2cost; omega
            · rw [max_eq_right h] at h2cost; omega
        · rw [if_neg hwin]
          exact ⟨s₁, h1sub.trans (take_sublist_take_succ projetos i),
            h1names, h1val, h1cost⟩

/-- Optimality of the pure recursive solver: no sublist of the considered
prefix that fits the capacity has a larger total value. -/
theorem resolverRec_bound (projetos : List Projeto)
    (hpos : ∀ p ∈ projetos, 0 < p.custo) :
    ∀ i, i ≤ projetos.length → ∀ c : Int, ∀ s : List Projeto,
      s.Sublist (projetos.take i) → sumCusto s ≤ c →
      sumValor s ≤ (resolverRec projetos i c).1 := by
  intro i
  induction i with
  | zero =>
    intro _ c s hs _
    rw [List.take_zero, List.sublist_nil] at hs
    subst hs
    simp [sumValor, resolverRec]
  | succ i ih =>
    intro hlen c s hs hcost
    have hi : i < projetos.length := by omega
    have hmem : ∀ p ∈ s, p ∈ projetos := by
      intro p hp
      exact List.take_subset _ _ (hs.subset hp)
    by_cases hc : c ≤ 0
    · have hnil : s = [] :=
        nil_of_sumCusto_nonpos s (fun p hp => hpos p (hmem p hp)) (by omega)
      subst hnil
      rw [resolverRec_nonpos projetos (i + 1) c hc]
      simp [sumValor]
    · push_neg at hc
      rw [take_succ_concat projetos i hi] at hs
      obtain ⟨l₁, l₂, rfl, hl₁, hl₂⟩ := List.sublist_append_iff.mp hs
      rcases List.sublist_singleton.mp hl₂ with rfl | rfl
      · rw [List.append_nil] at hcost ⊢
        exact le_trans (ih (by omega) c l₁ hl₁ hcost)
          (resolverRec_fst_le_succ projetos i c)
      · have hl₁cost : 0 ≤ sumCusto l₁ :=
          sumCusto_nonneg l₁ (fun p hp =>
            le_of_lt (hpos p (hmem p (by simp [hp]))))
        rw [sumCusto_append] at hcost
        have hone : sumCusto [projetos.getD i projDefault] =
            (projetos.getD i projDefault).custo := by simp [sumCusto]
        rw [hone] at hcost
        have hfit : ¬ (projetos.getD i projDefault).custo > c := by omega
        have hihc := ih (by omega) (c - (projetos.getD i projDefault).custo)
          l₁ hl₁ (by omega)
        simp only [resolverRec, if_neg (by omega : ¬ c ≤ 0), if_neg hfit]
        rw [sumValor_append]
        have honev : sumValor [projetos.getD i projDefault] =
            (projetos.getD i projDefault).valor := by simp [sumValor]
        rw [honev]
        split
        · rename_i hwin
          simp only []
          omega
        · rename_i hwin
          omega

/-! ### The greedy loop -/

/-- The greedy loop's output is witnessed by a sublist of its input:
chosen names in scan order, value the sublist's total value, cost within
the remaining capacity. -/
theorem gulosaLoop_spec : ∀ (l : List Projeto) (r : Int), 0 ≤ r →
    ∃ s : List Projeto, s.Sublist l ∧
      gulosaLoop l r = (sumValor s, s.map Projeto.nome) ∧
      sumCusto s ≤ r := by
  intro l
  induction l with
  | nil =>
    intro r hr
    exact ⟨[], List.Sublist.refl _, by simp [gulosaLoop, sumValor], by
      simp [sumCusto]; omega⟩
  | cons p rest ih =>
    intro r hr
    by_cases hfit : p.custo ≤ r
    · obtain ⟨s, hsub, heq, hcost⟩ := ih (r - p.custo) (by omega)
      refine ⟨p :: s, List.Sublist.cons₂ p hsub, ?_, ?_⟩
      · simp only [gulosaLoop, if_pos hfit, heq]
        simp [sumValor]
      · simp only [sumCusto, List.map_cons, List.sum_cons]
        have : sumCusto s = (s.map Projeto.custo).sum := rfl
        omega
    · obtain ⟨s, hsub, heq, hcost⟩ := ih r hr
      exact ⟨s, hsub.cons p, by simp only [gulosaLoop, if_neg hfit, heq], hcost⟩

/-- When everything fits, the greedy loop takes every item in order. -/
theorem gulosaLoop_all : ∀ (l : List Projeto) (r : Int),
    (∀ p ∈ l, 0 ≤ p.custo) → sumCusto l ≤ r →
    gulosaLoop l r = (sumValor l, l.map Projeto.nome) := by
  intro l
  induction l with
  | nil => intro r _ _; simp [gulosaLoop, sumValor]
  | cons p rest ih =>
    intro r h0 hr
    have hrest : 0 ≤ sumCusto rest :=
      sumCusto_nonneg rest (fun q hq => h0 q (by simp [hq]))
    have hsum : sumCusto (p :: rest) = p.custo + sumCusto rest := by
      simp only [sumCusto, List.map_cons, List.sum_cons]
    have hfit : p.custo ≤ r := by omega
    rw [show gulosaLoop (p :: rest) r =
        (p.valor + (gulosaLoop rest (r - p.custo)).1,
          p.nome :: (gulosaLoop rest (r - p.custo)).2) by
      simp only [gulosaLoop, if_pos hfit]]
    rw [ih (r - p.custo) (fun q hq => h0 q (by simp [hq])) (by omega)]
    simp [sumValor]

/-! ### The greedy solver on validated input -/

theorem sumValor_perm {s t : List Projeto} (h : s.Perm t) :
    sumValor s = sumValor t :=
  (h.map Projeto.valor).sum_eq

theorem sumCusto_perm {s t : List Projeto} (h : s.Perm t) :
    sumCusto s = sumCusto t :=
  (h.map Projeto.custo).sum_eq

theorem sorted_perm (projetos : List Projeto) :
    (projetos.mergeSort (fun a b => decide (razao b ≤ razao a))).Perm projetos :=
  List.mergeSort_perm projetos _

theorem gulosa_eq_some (projetos : List Projeto) (capacidade : Int)
    (hpos : ∀ p ∈ projetos, 0 < p.custo) :
    mochila_gulosa projetos capacidade =
      some (gulosaLoop
        (projetos.mergeSort (fun a b => decide (razao b ≤ razao a)))
        capacidade) := by
  have hno : ¬ (projetos.any (fun p => decide (p.custo = 0)) = true) := by
    simp only [List.any_eq_true, decide_eq_true_eq]
    rintro ⟨p, hp, hp0⟩
    have := hpos p hp
    omega
  simp only [mochila_gulosa, if_neg hno]

theorem gulosaLoop_neg : ∀ (l : List Projeto) (r : Int),
    (∀ p ∈ l, 0 < p.custo) → r < 0 → gulosaLoop l r = (0, []) := by
  intro l
  induction l with
  | nil => intro r _ _; rfl
  | cons p rest ih =>
    intro r hpos hr
    have hp := hpos p (by simp)
    rw [show gulosaLoop (p :: rest) r = gulosaLoop rest r by
      simp only [gulosaLoop, if_neg (by omega : ¬ p.custo ≤ r)]]
    exact ih r (fun q hq => hpos q (by simp [hq])) hr

/-- Optimality against arbitrary sub-permutations of the item list
(covers the greedy solver, whose choices come from the sorted copy). -/
theorem resolverRec_bound_subperm (projetos : List Projeto)
    (hpos : ∀ p ∈ projetos, 0 < p.custo) (capacidade : Int)
    (s : List Projeto) (hs : s.Subperm projetos)
    (hc : sumCusto s ≤ capacidade) :
    sumValor s ≤ (mochila_recursiva projetos capacidade).1 := by
  obtain ⟨t, hts, hsub⟩ := hs
  have hb := resolverRec_bound projetos hpos projetos.length (le_refl _)
    capacidade t (by rw [List.take_length]; exact hsub)
    (by rw [sumCusto_perm hts]; exact hc)
  rw [sumValor_perm hts] at hb
  exact hb

/-! ### When every item fits, the recursive solver takes them all -/

theorem resolverRec_all (projetos : List Projeto)
    (hpos : ∀ p ∈ projetos, 0 < p.custo)
    (hval : ∀ p ∈ projetos, 0 < p.valor) :
    ∀ i, i ≤ projetos.length → ∀ c : Int,
      sumCusto (projetos.take i) ≤ c →
      resolverRec projetos i c =
        (sumValor (projetos.take i), (projetos.take i).map Projeto.nome) := by
  intro i
  induction i with
  | zero =>
    intro _ c _
    simp [resolverRec, sumValor]
  | succ i ih =>
    intro hlen c hc
    have hi : i < projetos.length := by omega
    have hcu : 0 < (projetos.getD i projDefault).custo :=
      hpos _ (getD_mem projetos i hi)
    have hva : 0 < (projetos.getD i projDefault).valor :=
      hval _ (getD_mem projetos i hi)
    have htk : projetos.take (i + 1) =
        projetos.take i ++ [projetos.getD i projDefault] :=
      take_succ_concat projetos i hi
    have htknn : 0 ≤ sumCusto (projetos.take i) :=
      sumCusto_nonneg _ (fun p hp =>
        le_of_lt (hpos p (List.take_subset _ _ hp)))
    rw [htk, sumCusto_append] at hc
    have hone : sumCusto [projetos.getD i projDefault] =
        (projetos.getD i projDefault).custo := by simp [sumCusto]
    rw [hone] at hc
    have hcpos : 0 < c := by omega
    have hsem := ih (by omega) c (by omega)
    have hcom := ih (by omega) (c - (projetos.getD i projDefault).custo)
      (by omega)
    simp only [resolverRec, if_neg (by omega : ¬ c ≤ 0),
      if_neg (by omega : ¬ (projetos.getD i projDefault).custo > c),
      hsem, hcom]
    rw [if_pos (by omega :
      sumValor (projetos.take i) + (projetos.getD i projDefault).valor >
        sumValor (projetos.take i))]
    rw [htk, sumValor_append, List.map_append]
    simp [sumValor]

/-! ### Monotonicity of the DP table -/

theorem tabela_mono_c (projetos : List Projeto) :
    ∀ i (c c' : Int), c ≤ c' →
      tabela projetos i c ≤ tabela projetos i c' := by
  intro i
  induction i with
  | zero => intro c c' _; exact le_refl 0
  | succ i ih =>
    intro c c' hcc
    by_cases h1 : (projetos.getD i projDefault).custo > c'
    · have h2 : (projetos.getD i projDefault).custo > c := by omega
      simp only [tabela, if_pos h1, if_pos h2]
      exact ih c c' hcc
    · by_cases h2 : (projetos.getD i projDefault).custo > c
      · simp only [tabela, if_pos h2, if_neg h1]
        exact le_trans (ih c c' hcc) (le_max_left _ _)
      · simp only [tabela, if_neg h1, if_neg h2]
        refine max_le_max (ih c c' hcc) ?_
        have := ih (c - (projetos.getD i projDefault).custo)
          (c' - (projetos.getD i projDefault).custo) (by omega)
        omega

theorem tabela_le_succ (projetos : List Projeto) (i : Nat) (c : Int) :
    tabela projetos i c ≤ tabela projetos (i + 1) c := by
  by_cases h : (projetos.getD i projDefault).custo > c
  · simp only [tabela, if_pos h]
    exact le_refl _
  · simp only [tabela, if_neg h]
    exact le_max_left _ _

theorem tabela_mono (projetos : List Projeto) :
    ∀ i i' (c c' : Int), i ≤ i' → c ≤ c' →
      tabela projetos i c ≤ tabela projetos i' c' := by
  intro i i' c c' hii hcc
  induction i', hii using Nat.le_induction with
  | base => exact tabela_mono_c projetos i c c' hcc
  | succ n hn ih => exact le_trans ih (tabela_le_succ projetos n c')

/-! ### Packaged witnesses for the exact solvers -/

theorem mochila_recursiva_witnessed (projetos : List Projeto)
    (capacidade : Int) (hcap : 0 ≤ capacidade) :
    ∃ s : List Projeto, s.Sublist projetos ∧
      (mochila_recursiva projetos capacidade).2 = s.map Projeto.nome ∧
      (mochila_recursiva projetos capacidade).1 = sumValor s ∧
      sumCusto s ≤ capacidade := by
  obtain ⟨s, hsub, hn, hv, hc⟩ :=
    resolverRec_achieves projetos projetos.length (le_refl _) capacidade
  rw [List.take_length] at hsub
  rw [max_eq_left hcap] at hc
  exact ⟨s, hsub, hn, hv, hc⟩

theorem mochila_gulosa_witnessed (projetos : List Projeto)
    (capacidade : Int) (hpos : ∀ p ∈ projetos, 0 < p.custo)
    (hcap : 0 ≤ capacidade) :
    ∃ g s, mochila_gulosa projetos capacidade = some g ∧
      s.Subperm projetos ∧ g.2 = s.map Projeto.nome ∧
      g.1 = sumValor s ∧ sumCusto s ≤ capacidade := by
  rw [gulosa_eq_some projetos capacidade hpos]
  obtain ⟨s, hsub, heq, hcost⟩ := gulosaLoop_spec
    (projetos.mergeSort (fun a b => decide (razao b ≤ razao a)))
    capacidade hcap
  refine ⟨_, s, rfl, hsub.subperm.trans (sorted_perm projetos).subperm,
    ?_, ?_, hcost⟩
  · rw [heq]
  · rw [heq]

/-! ### Claim theorems -/

/-- C1: for every item list with positive costs and non-negative values
and every non-negative capacity, the memoized and bottom-up DP solvers
return the same total value as the pure recursive solver, and the greedy
solver returns (without failing) a value at most that common value. -/
theorem C1_optimality_equivalence (projetos : List Projeto)
    (capacidade : Int) (hv : ValidInput projetos capacidade) :
    (mochila_memo projetos capacidade).1 =
      (mochila_recursiva projetos capacidade).1 ∧
    (mochila_pd projetos capacidade).1 =
      (mochila_recursiva projetos capacidade).1 ∧
    ∃ g, mochila_gulosa projetos capacidade = some g ∧
      g.1 ≤ (mochila_recursiva projetos capacidade).1 := by
  obtain ⟨hitems, hcap⟩ := hv
  have hpos : ∀ p ∈ projetos, 0 < p.custo := fun p hp => (hitems p hp).1
  refine ⟨by rw [mochila_memo_eq_recursiva],
    by rw [mochila_pd_eq_recursiva projetos capacidade hpos hcap], ?_⟩
  obtain ⟨g, s, hg, hsub, _, hval, hcost⟩ :=
    mochila_gulosa_witnessed projetos capacidade hpos hcap
  refine ⟨g, hg, ?_⟩
  rw [hval]
  exact resolverRec_bound_subperm projetos hpos capacidade s hsub hcost

/-- Witness for C1 at the `exemplo_enunciado` input. -/
theorem C1_witness :
    (mochila_memo exemplo_enunciado.1 exemplo_enunciado.2).1 =
      (mochila_recursiva exemplo_enunciado.1 exemplo_enunciado.2).1 ∧
    (mochila_pd exemplo_enunciado.1 exemplo_enunciado.2).1 =
      (mochila_recursiva exemplo_enunciado.1 exemplo_enunciado.2).1 ∧
    ∃ g, mochila_gulosa exemplo_enunciado.1 exemplo_enunciado.2 = some g ∧
      g.1 ≤ (mochila_recursiva exemplo_enunciado.1 exemplo_enunciado.2).1 :=
  C1_optimality_equivalence exemplo_enunciado.1 exemplo_enunciado.2
    ⟨by decide, by decide⟩

/-- C2 counterexample: on the `exemplo_enunciado` data the pure recursive
solver does not return total value 23 (items A, B, C fit with cost 9 and
value 29, so the optimum exceeds 23). -/
theorem C2_counterexample :
    (mochila_recursiva exemplo_enunciado.1 exemplo_enunciado.2).1 ≠ 23 := by
  decide

/-- C2 (amended): on the `exemplo_enunciado` data the pure recursive,
memoized, and bottom-up DP solvers each return total value 29. -/
theorem C2_reference_case :
    (mochila_recursiva exemplo_enunciado.1 exemplo_enunciado.2).1 = 29 ∧
    (mochila_memo exemplo_enunciado.1 exemplo_enunciado.2).1 = 29 ∧
    (mochila_pd exemplo_enunciado.1 exemplo_enunciado.2).1 = 29 :=
  ⟨by decide, by decide, by decide⟩

/-- C3: for every item list with positive costs and every non-negative
capacity, the memoized solver returns output identical to the pure
recursive solver: the same total value and the exact same ordered list
of chosen item names. -/
theorem C3_memo_identical (projetos : List Projeto) (capacidade : Int)
    (_hpos : ∀ p ∈ projetos, 0 < p.custo) (_hcap : 0 ≤ capacidade) :
    mochila_memo projetos capacidade = mochila_recursiva projetos capacidade :=
  mochila_memo_eq_recursiva projetos capacidade

/-- Witness for C3 at the `exemplo_enunciado` input. -/
theorem C3_witness :
    mochila_memo exemplo_enunciado.1 exemplo_enunciado.2 =
      mochila_recursiva exemplo_enunciado.1 exemplo_enunciado.2 :=
  C3_memo_identical exemplo_enunciado.1 exemplo_enunciado.2
    (by decide) (by decide)

/-- C4 counterexample (negation of the claim): there is no valid input on
which the bottom-up DP solver's chosen-item list differs from the pure
recursive solver's while the values agree — the reconstruction's `!=`
tie-break coincides with the recursive prefer-exclude rule. -/
theorem C4_counterexample :
    ¬ ∃ (projetos : List Projeto) (capacidade : Int),
      ValidInput projetos capacidade ∧
      (mochila_pd projetos capacidade).1 =
        (mochila_recursiva projetos capacidade).1 ∧
      (mochila_pd projetos capacidade).2 ≠
        (mochila_recursiva projetos capacidade).2 := by
  rintro ⟨projetos, capacidade, ⟨hitems, hcap⟩, _, hne⟩
  exact hne (congrArg Prod.snd
    (mochila_pd_eq_recursiva projetos capacidade
      (fun p hp => (hitems p hp).1) hcap))

/-- C4 (amended): on every valid input the bottom-up DP solver returns
exactly the same pair (total value and ordered chosen-item list) as the
pure recursive solver, also when multiple optimal subsets exist. -/
theorem C4_pd_equals_recursiva (projetos : List Projeto) (capacidade : Int)
    (hv : ValidInput projetos capacidade) :
    mochila_pd projetos capacidade = mochila_recursiva projetos capacidade :=
  mochila_pd_eq_recursiva projetos capacidade
    (fun p hp => (hv.1 p hp).1) hv.2

/-- Witness for the amended C4 at the `exemplo_enunciado` input. -/
theorem C4_witness :
    mochila_pd exemplo_enunciado.1 exemplo_enunciado.2 =
      mochila_recursiva exemplo_enunciado.1 exemplo_enunciado.2 :=
  C4_pd_equals_recursiva exemplo_enunciado.1 exemplo_enunciado.2
    ⟨by decide, by decide⟩

/-- C5 counterexample: on an input containing a zero-cost item the pure
recursive solver does not reject: it returns an ordinary result. -/
theorem C5_counterexample :
    mochila_recursiva [⟨"Z", 5, 0⟩] 1 = (5, ["Z"]) := by
  decide

/-- C5 (amended): no solver validates non-positive costs.  On a
zero-cost item the greedy solver fails with an unhandled division by
zero while computing the sort key (not a descriptive rejection naming
the item), and the memoized and DP solvers return ordinary results. -/
theorem C5_no_validation :
    mochila_gulosa [⟨"Z", 5, 0⟩] 1 = none ∧
    mochila_memo [⟨"Z", 5, 0⟩] 1 = (5, ["Z"]) ∧
    mochila_pd [⟨"Z", 5, 0⟩] 1 = (5, ["Z"]) :=
  ⟨by decide, by decide, by decide⟩

/-- C6: on every valid input, each of the four solvers chooses (by name,
in order) a sub-collection of the item list whose total cost is at most
the capacity. -/
theorem C6_feasibility (projetos : List Projeto) (capacidade : Int)
    (hv : ValidInput projetos capacidade) :
    (∃ s : List Projeto, s.Subperm projetos ∧
      (mochila_recursiva projetos capacidade).2 = s.map Projeto.nome ∧
      sumCusto s ≤ capacidade) ∧
    (∃ s : List Projeto, s.Subperm projetos ∧
      (mochila_memo projetos capacidade).2 = s.map Projeto.nome ∧
      sumCusto s ≤ capacidade) ∧
    (∃ s : List Projeto, s.Subperm projetos ∧
      (mochila_pd projetos capacidade).2 = s.map Projeto.nome ∧
      sumCusto s ≤ capacidade) ∧
    (∃ g s, mochila_gulosa projetos capacidade = some g ∧
      s.Subperm projetos ∧ g.2 = s.map Projeto.nome ∧
      sumCusto s ≤ capacidade) := by
  obtain ⟨hitems, hcap⟩ := hv
  have hpos : ∀ p ∈ projetos, 0 < p.custo := fun p hp => (hitems p hp).1
  obtain ⟨s, hsub, hn, _, hcost⟩ :=
    mochila_recursiva_witnessed projetos capacidade hcap
  have hR : ∃ s : List Projeto, s.Subperm projetos ∧
      (mochila_recursiva projetos capacidade).2 = s.map Projeto.nome ∧
      sumCusto s ≤ capacidade := ⟨s, hsub.subperm, hn, hcost⟩
  refine ⟨hR, ?_, ?_, ?_⟩
  · rw [mochila_memo_eq_recursiva]
    exact hR
  · rw [mochila_pd_eq_recursiva projetos capacidade hpos hcap]
    exact hR
  · obtain ⟨g, s', hg, hsub', hn', _, hcost'⟩ :=
      mochila_gulosa_witnessed projetos capacidade hpos hcap
    exact ⟨g, s', hg, hsub', hn', hcost'⟩

/-- Witness for C6 at the `exemplo_enunciado` input. -/
theorem C6_witness :
    (∃ s : List Projeto, s.Subperm exemplo_enunciado.1 ∧
      (mochila_recursiva exemplo_enunciado.1 exemplo_enunciado.2).2 =
        s.map Projeto.nome ∧ sumCusto s ≤ exemplo_enunciado.2) ∧
    (∃ s : List Projeto, s.Subperm exemplo_enunciado.1 ∧
      (mochila_memo exemplo_enunciado.1 exemplo_enunciado.2).2 =
        s.map Projeto.nome ∧ sumCusto s ≤ exemplo_enunciado.2) ∧
    (∃ s : List Projeto, s.Subperm exemplo_enunciado.1 ∧
      (mochila_pd exemplo_enunciado.1 exemplo_enunciado.2).2 =
        s.map Projeto.nome ∧ sumCusto s ≤ exemplo_enunciado.2) ∧
    (∃ g s, mochila_gulosa exemplo_enunciado.1 exemplo_enunciado.2 = some g ∧
      s.Subperm exemplo_enunciado.1 ∧ g.2 = s.map Projeto.nome ∧
      sumCusto s ≤ exemplo_enunciado.2) :=
  C6_feasibility exemplo_enunciado.1 exemplo_enunciado.2 ⟨by decide, by decide⟩

/-- C7: on every valid input, each of the four solvers reports a total
value equal to the sum of the `valor` fields of its chosen items. -/
theorem C7_internal_consistency (projetos : List Projeto) (capacidade : Int)
    (hv : ValidInput projetos capacidade) :
    (∃ s : List Projeto, s.Subperm projetos ∧
      (mochila_recursiva projetos capacidade).2 = s.map Projeto.nome ∧
      (mochila_recursiva projetos capacidade).1 = sumValor s) ∧
    (∃ s : List Projeto, s.Subperm projetos ∧
      (mochila_memo projetos capacidade).2 = s.map Projeto.nome ∧
      (mochila_memo projetos capacidade).1 = sumValor s) ∧
    (∃ s : List Projeto, s.Subperm projetos ∧
      (mochila_pd projetos capacidade).2 = s.map Projeto.nome ∧
      (mochila_pd projetos capacidade).1 = sumValor s) ∧
    (∃ g s, mochila_gulosa projetos capacidade = some g ∧
      s.Subperm projetos ∧ g.2 = s.map Projeto.nome ∧
      g.1 = sumValor s) := by
  obtain ⟨hitems, hcap⟩ := hv
  have hpos : ∀ p ∈ projetos, 0 < p.custo := fun p hp => (hitems p hp).1
  obtain ⟨s, hsub, hn, hval, _⟩ :=
    mochila_recursiva_witnessed projetos capacidade hcap
  have hR : ∃ s : List Projeto, s.Subperm projetos ∧
      (mochila_recursiva projetos capacidade).2 = s.map Projeto.nome ∧
      (mochila_recursiva projetos capacidade).1 = sumValor s :=
    ⟨s, hsub.subperm, hn, hval⟩
  refine ⟨hR, ?_, ?_, ?_⟩
  · rw [mochila_memo_eq_recursiva]
    exact hR
  · rw [mochila_pd_eq_recursiva projetos capacidade hpos hcap]
    exact hR
  · obtain ⟨g, s', hg, hsub', hn', hval', _⟩ :=
      mochila_gulosa_witnessed projetos capacidade hpos hcap
    exact ⟨g, s', hg, hsub', hn', hval'⟩

/-- Witness for C7 at the `exemplo_enunciado` input. -/
theorem C7_witness :
    (∃ s : List Projeto, s.Subperm exemplo_enunciado.1 ∧
      (mochila_recursiva exemplo_enunciado.1 exemplo_enunciado.2).2 =
        s.map Projeto.nome ∧
      (mochila_recursiva exemplo_enunciado.1 exemplo_enunciado.2).1 =
        sumValor s) ∧
    (∃ s : List Projeto, s.Subperm exemplo_enunciado.1 ∧
      (mochila_memo exemplo_enunciado.1 exemplo_enunciado.2).2 =
        s.map Projeto.nome ∧
      (mochila_memo exemplo_enunciado.1 exemplo_enunciado.2).1 =
        sumValor s) ∧
    (∃ s : List Projeto, s.Subperm exemplo_enunciado.1 ∧
      (mochila_pd exemplo_enunciado.1 exemplo_enunciado.2).2 =
        s.map Projeto.nome ∧
      (mochila_pd exemplo_enunciado.1 exemplo_enunciado.2).1 =
        sumValor s) ∧
    (∃ g s, mochila_gulosa exemplo_enunciado.1 exemplo_enunciado.2 = some g ∧
      s.Subperm exemplo_enunciado.1 ∧ g.2 = s.map Projeto.nome ∧
      g.1 = sumValor s) :=
  C7_internal_consistency exemplo_enunciado.1 exemplo_enunciado.2
    ⟨by decide, by decide⟩

/-- C8 counterexample: with one item of value 0 and cost 1 and capacity
1 (all costs individually and in total within capacity), the pure
recursive solver does not select all items: its chosen list is empty,
because the tie-break prefers the exclude branch when including a
zero-value item does not strictly increase the value. -/
theorem C8_counterexample :
    (mochila_recursiva [⟨"Z", 0, 1⟩] 1).2 ≠ ["Z"] := by
  decide

/-- C8 (amended): when every item's value is positive (not merely
non-negative), every cost is positive, and the total cost fits the
capacity, all four solvers select all items — the recursive, memoized
and DP solvers in input order, the greedy solver in sorted order — with
value equal to the sum of all item values. -/
theorem C8_all_items (projetos : List Projeto) (capacidade : Int)
    (hpos : ∀ p ∈ projetos, 0 < p.custo)
    (hval : ∀ p ∈ projetos, 0 < p.valor)
    (_hind : ∀ p ∈ projetos, p.custo ≤ capacidade)
    (htot : sumCusto projetos ≤ capacidade) :
    mochila_recursiva projetos capacidade =
      (sumValor projetos, projetos.map Projeto.nome) ∧
    mochila_memo projetos capacidade =
      (sumValor projetos, projetos.map Projeto.nome) ∧
    mochila_pd projetos capacidade =
      (sumValor projetos, projetos.map Projeto.nome) ∧
    ∃ g, mochila_gulosa projetos capacidade = some g ∧
      g.1 = sumValor projetos ∧ g.2.Perm (projetos.map Projeto.nome) := by
  have hcap : 0 ≤ capacidade :=
    le_trans (sumCusto_nonneg projetos
      (fun p hp => le_of_lt (hpos p hp))) htot
  have hrec : mochila_recursiva projetos capacidade =
      (sumValor projetos, projetos.map Projeto.nome) := by
    have := resolverRec_all projetos hpos hval projetos.length (le_refl _)
      capacidade (by rw [List.take_length]; exact htot)
    rw [List.take_length] at this
    exact this
  refine ⟨hrec, by rw [mochila_memo_eq_recursiva]; exact hrec,
    by rw [mochila_pd_eq_recursiva projetos capacidade hpos hcap]; exact hrec,
    ?_⟩
  rw [gulosa_eq_some projetos capacidade hpos]
  have hperm := sorted_perm projetos
  rw [gulosaLoop_all
    (projetos.mergeSort (fun a b => decide (razao b ≤ razao a))) capacidade
    (fun p hp => le_of_lt (hpos p (hperm.mem_iff.mp hp)))
    (by rw [sumCusto_perm hperm]; exact htot)]
  exact ⟨_, rfl, sumValor_perm hperm, hperm.map Projeto.nome⟩

/-- Witness for the amended C8 at a two-item input with capacity 5. -/
theorem C8_witness :
    mochila_recursiva [⟨"A", 2, 1⟩, ⟨"B", 3, 2⟩] 5 =
      (sumValor [⟨"A", 2, 1⟩, ⟨"B", 3, 2⟩],
        [Projeto.mk "A" 2 1, ⟨"B", 3, 2⟩].map Projeto.nome) ∧
    mochila_memo [⟨"A", 2, 1⟩, ⟨"B", 3, 2⟩] 5 =
      (sumValor [⟨"A", 2, 1⟩, ⟨"B", 3, 2⟩],
        [Projeto.mk "A" 2 1, ⟨"B", 3, 2⟩].map Projeto.nome) ∧
    mochila_pd [⟨"A", 2, 1⟩, ⟨"B", 3, 2⟩] 5 =
      (sumValor [⟨"A", 2, 1⟩, ⟨"B", 3, 2⟩],
        [Projeto.mk "A" 2 1, ⟨"B", 3, 2⟩].map Projeto.nome) ∧
    ∃ g, mochila_gulosa [⟨"A", 2, 1⟩, ⟨"B", 3, 2⟩] 5 = some g ∧
      g.1 = sumValor [⟨"A", 2, 1⟩, ⟨"B", 3, 2⟩] ∧
      g.2.Perm ([Projeto.mk "A" 2 1, ⟨"B", 3, 2⟩].map Projeto.nome) :=
  C8_all_items [⟨"A", 2, 1⟩, ⟨"B", 3, 2⟩] 5
    (by decide) (by decide) (by decide) (by decide)

/-- C9: on every valid input the DP table has an all-zero row 0 on the
capacities the program fills, and is monotonically non-decreasing in
both the item index and the capacity across the filled region. -/
theorem C9_table_invariant (projetos : List Projeto) (capacidade : Int)
    (_hv : ValidInput projetos capacidade) :
    (∀ c : Int, 0 ≤ c → c ≤ capacidade → tabela projetos 0 c = 0) ∧
    (∀ i i' (c c' : Int), i ≤ i' → i' ≤ projetos.length →
      0 ≤ c → c ≤ c' → c' ≤ capacidade →
      tabela projetos i c ≤ tabela projetos i' c') :=
  ⟨fun _ _ _ => rfl,
    fun i i' c c' hii _ _ hcc _ => tabela_mono projetos i i' c c' hii hcc⟩

/-- Witness for C9 at the `exemplo_enunciado` input. -/
theorem C9_witness :
    (∀ c : Int, 0 ≤ c → c ≤ exemplo_enunciado.2 →
      tabela exemplo_enunciado.1 0 c = 0) ∧
    (∀ i i' (c c' : Int), i ≤ i' → i' ≤ exemplo_enunciado.1.length →
      0 ≤ c → c ≤ c' → c' ≤ exemplo_enunciado.2 →
      tabela exemplo_enunciado.1 i c ≤ tabela exemplo_enunciado.1 i' c') :=
  C9_table_invariant exemplo_enunciado.1 exemplo_enunciado.2
    ⟨by decide, by decide⟩

/-- C10: for every item list with positive costs and every negative
capacity, the greedy, pure recursive, and memoized solvers each return
`(0, [])` without failing. -/
theorem C10_negative_capacity (projetos : List Projeto) (capacidade : Int)
    (hpos : ∀ p ∈ projetos, 0 < p.custo) (hneg : capacidade < 0) :
    mochila_gulosa projetos capacidade = some (0, []) ∧
    mochila_recursiva projetos capacidade = (0, []) ∧
    mochila_memo projetos capacidade = (0, []) := by
  have hrec : mochila_recursiva projetos capacidade = (0, []) :=
    resolverRec_nonpos projetos projetos.length capacidade (by omega)
  refine ⟨?_, hrec, by rw [mochila_memo_eq_recursiva]; exact hrec⟩
  rw [gulosa_eq_some projetos capacidade hpos]
  rw [gulosaLoop_neg
    (projetos.mergeSort (fun a b => decide (razao b ≤ razao a))) capacidade
    (fun p hp => hpos p ((sorted_perm projetos).mem_iff.mp hp)) hneg]

/-- Witness for C10 at a one-item input with capacity -1. -/
theorem C10_witness :
    mochila_gulosa [⟨"A", 12, 4⟩] (-1) = some (0, []) ∧
    mochila_recursiva [⟨"A", 12, 4⟩] (-1) = (0, []) ∧
    mochila_memo [⟨"A", 12, 4⟩] (-1) = (0, []) :=
  C10_negative_capacity [⟨"A", 12, 4⟩] (-1) (by decide) (by decide)
